import Mathlib

/-!
# Verification of the subtitle caption synthesis core of `srt_transcriber`

Shallow embedding of the caption-synthesis logic of `src/transcribe.py`
(`format_srt_time`, the cue-producing loop of `transcribe_to_srt`) and of
`src/app.py` (`hex_to_ass`, and the identical cue-producing loop inside the
`transcribe` route's `generate`).  Time values are modelled as rationals
(the Python source computes on floats; every arithmetic step used here —
floor division, modulus, truncation to integer, comparison — is exact on
the decimal inputs the claims mention).  Fallible operations (Python
indexing that can raise) are modelled with `Option`.
-/

namespace SrtTranscriber

/-- A recognized word as produced by the speech recognizer: fields `start`,
`end` and `word`, mirroring the attributes `w.start`, `w.end`, `w.word`
read by `transcribe_to_srt`. -/
structure Word where
  start : ℚ
  «end» : ℚ
  word : String
deriving Repr, DecidableEq

/-- A recognized segment: fields `start`, `end`, `text`, `words`, mirroring
the attributes `segment.start`, `segment.end`, `segment.text`,
`segment.words` read by `transcribe_to_srt`.  A Python `words` value of
`None` is modelled as the empty list (both are falsy in the guard
`if max_words and segment.words`). -/
structure Segment where
  start : ℚ
  «end» : ℚ
  text : String
  words : List Word
deriving Repr, DecidableEq

/-- One output subtitle cue: the caption number, the two timestamps and the
text that `transcribe_to_srt` writes as one SRT block. -/
structure SubtitleCue where
  index : Nat
  start : ℚ
  «end» : ℚ
  text : String
deriving Repr, DecidableEq

/-! ## Python arithmetic primitives on rationals -/

/-- Python `int(x)`: truncation toward zero. -/
def pyInt (x : ℚ) : Int :=
  if x < 0 then -⌊-x⌋ else ⌊x⌋

/-- Python `x // y` (floor division) for `y ≠ 0`. -/
def pyFloorDiv (x y : ℚ) : ℚ :=
  ⌊x / y⌋

/-- Python `x % y` for `y > 0`: `x - y * floor(x / y)`. -/
def pyMod (x y : ℚ) : ℚ :=
  x - y * ⌊x / y⌋

/-- The whitespace characters stripped by Python's `str.strip()` (ASCII part). -/
def isSpace (c : Char) : Bool :=
  c = ' ' || c = '\t' || c = '\n' || c = '\r' || c = '\x0b' || c = '\x0c'

/-- Python `s.strip()`: remove leading and trailing whitespace. -/
def pyStrip (s : String) : String :=
  String.mk (((s.data.dropWhile isSpace).reverse.dropWhile isSpace).reverse)

/-- Zero-pad a string of digits on the left to the given width
(Python's `{n:02}` / `{n:03}` formatting for a non-negative `n`). -/
def zeroPad (width : Nat) (s : String) : String :=
  if s.length < width then String.mk (List.replicate (width - s.length) '0') ++ s else s

/-- Decimal digit character for `d < 10`. -/
def digitChar (d : Nat) : Char :=
  Char.ofNat (48 + d)

/-- Decimal digits of a natural number, most significant first; the fuel
argument (any bound ≥ the digit count) keeps the recursion structural. -/
def natDigits : Nat → Nat → List Char
  | 0, _ => []
  | fuel + 1, n =>
    if n < 10 then [digitChar n]
    else natDigits fuel (n / 10) ++ [digitChar (n % 10)]

/-- Decimal rendering of a natural number (Python `str(n)` for `n ≥ 0`). -/
def natRepr (n : Nat) : String :=
  String.mk (natDigits (n + 1) n)

/-- Python `f"{n:0w}"` for an integer `n`: zero-padding goes after the sign. -/
def pyFormatInt (width : Nat) (n : Int) : String :=
  if n < 0 then "-" ++ zeroPad (width - 1) (natRepr (-n).toNat)
  else zeroPad width (natRepr n.toNat)

/-! ## `format_srt_time` (src/transcribe.py, lines 13–19) -/

/-- Embedding of `format_srt_time(seconds)`:
`hours = int(seconds // 3600)`, `minutes = int((seconds % 3600) // 60)`,
`secs = int(seconds % 60)`, `millis = int((seconds - int(seconds)) * 1000)`,
rendered as `f"{hours:02}:{minutes:02}:{secs:02},{millis:03}"`. -/
def format_srt_time (seconds : ℚ) : String :=
  pyFormatInt 2 (pyInt (pyFloorDiv seconds 3600)) ++ ":"
    ++ pyFormatInt 2 (pyInt (pyFloorDiv (pyMod seconds 3600) 60)) ++ ":"
    ++ pyFormatInt 2 (pyInt (pyMod seconds 60)) ++ ","
    ++ pyFormatInt 3 (pyInt ((seconds - (pyInt seconds : ℚ)) * 1000))

/-! ## The cue-producing loop of `transcribe_to_srt` (src/transcribe.py, lines 32–55)

The same loop appears verbatim inside `generate` in the `/transcribe`
route of `src/app.py` (lines 79–103); the embedding below covers both. -/

/-- Python `range(0, stop, step)` for a positive `step`:
`[0, step, 2*step, ...)` strictly below `stop`. -/
def rangeStepPos (stop step : Nat) : List Nat :=
  (List.range ((stop + step - 1) / step)).map (fun k => k * step)

/-- Python `range(0, stop, step)` for an arbitrary nonzero integer `step`:
empty when `step < 0` (and `stop ≥ 0`). -/
def pyRange (stop : Nat) (step : Int) : List Nat :=
  if 0 < step then rangeStepPos stop step.toNat else []

/-- Python `words[i : i + m]`. -/
def chunkAt (words : List Word) (i m : Nat) : List Word :=
  (words.drop i).take m

/-- The body of the word-window loop, for one chunk starting index:
`chunk = words[i:i+max_words]`, then `chunk[0].start`, `chunk[-1].end`,
`"".join(w.word for w in chunk).strip()`.  The indexings `chunk[0]` /
`chunk[-1]` raise on an empty chunk, modelled as `none`. -/
def cueOfChunk (capNum : Nat) (chunk : List Word) : Option SubtitleCue :=
  match chunk.head?, chunk.getLast? with
  | some w0, some wl =>
    some ⟨capNum, w0.start, wl.«end», pyStrip (String.join (chunk.map (·.word)))⟩
  | _, _ => none

/-- The word-window loop `for i in range(0, len(words), max_words)`,
threading the caption counter. -/
def windowLoop (words : List Word) (m : Nat) : Nat → List Nat → Option (List SubtitleCue)
  | _, [] => some []
  | capNum, i :: is =>
    match cueOfChunk capNum (chunkAt words i m) with
    | none => none
    | some cue =>
      match windowLoop words m (capNum + 1) is with
      | none => none
      | some rest => some (cue :: rest)

/-- The whole-segment (`else`) branch: one cue copying the segment's times,
text stripped. -/
def wholeCue (capNum : Nat) (seg : Segment) : SubtitleCue :=
  ⟨capNum, seg.start, seg.«end», pyStrip seg.text⟩

/-- The guard `if max_words and segment.words:`  — truthy iff `max_words`
is present and nonzero and the word list is non-empty. -/
def windowGuard (max_words : Option Int) (words : List Word) : Bool :=
  match max_words with
  | none => false
  | some m => decide (m ≠ 0) && !words.isEmpty

/-- The per-segment body of the loop over `segments`, producing this
segment's cues starting at caption number `capNum`. -/
def segmentCues (capNum : Nat) (max_words : Option Int) (seg : Segment) :
    Option (List SubtitleCue) :=
  if windowGuard max_words seg.words then
    let m := (max_words.getD 0)
    windowLoop seg.words m.toNat capNum (pyRange seg.words.length m)
  else
    some [wholeCue capNum seg]

/-- The full loop `for segment in segments` of `transcribe_to_srt`, with the
caption counter threaded across segments (it advances once per emitted
cue). -/
def transcribeLoop (max_words : Option Int) : Nat → List Segment → Option (List SubtitleCue)
  | _, [] => some []
  | capNum, seg :: rest =>
    match segmentCues capNum max_words seg with
    | none => none
    | some cues =>
      match transcribeLoop max_words (capNum + cues.length) rest with
      | none => none
      | some more => some (cues ++ more)

/-- The cue sequence produced by one run of `transcribe_to_srt` on the
recognizer's segment sequence: the counter `caption_num` starts at 1. -/
def transcribe_to_srt (segments : List Segment) (max_words : Option Int) :
    Option (List SubtitleCue) :=
  transcribeLoop max_words 1 segments

/-! ## `hex_to_ass` (src/app.py, lines 170–173) -/

/-- Embedding of `hex_to_ass(hex_color)`: `hex_color.lstrip('#')`, then the
slices `[0:2]`, `[2:4]`, `[4:6]` are the red, green, blue pairs, returned
as `"&H" + b + g + r`. -/
def hex_to_ass (hex_color : String) : String :=
  "&H" ++ String.mk (((hex_color.data.dropWhile (· = '#')).drop 4).take 2)
    ++ String.mk (((hex_color.data.dropWhile (· = '#')).drop 2).take 2)
    ++ String.mk (((hex_color.data.dropWhile (· = '#')).drop 0).take 2)

/-- Hexadecimal digit characters (the admissible characters of a color
triple). -/
def hexDigit (c : Char) : Bool :=
  c.isDigit || ('a' ≤ c && c ≤ 'f') || ('A' ≤ c && c ≤ 'F')

/-! ## SRT serialization (src/transcribe.py, lines 45–47 and 51–53)

`transcribe_to_srt` writes, for each cue, the three `f.write` calls
`f"{caption_num}\n"`, `f"{start} --> {end}\n"` (times formatted) and
`f"{text}\n\n"`; the file content is their concatenation over all cues. -/

/-- The block written to the SRT file for one cue. -/
def cueBlock (c : SubtitleCue) : String :=
  natRepr c.index ++ "\n"
    ++ format_srt_time c.start ++ " --> " ++ format_srt_time c.«end» ++ "\n"
    ++ c.text ++ "\n\n"

/-- The whole SRT file content for a cue sequence. -/
def srtFile (cues : List SubtitleCue) : String :=
  String.join (cues.map cueBlock)

/-! ## A conformant subtitle-block reader

Modelled from the spec: the repository writes SRT but contains no reader;
the spec's round-trip property is stated against "a conformant reader" of
the standard numbered-subtitle block layout (`index` line, `start --> end`
line, `text` line, blank separator line), so such a reader is defined here
from the spec's words. -/

/-- Split a character list at every occurrence of a separator (the usual
line/field splitting; `splitChar sep` never returns `[]`). -/
def splitChar (sep : Char) : List Char → List (List Char)
  | [] => [[]]
  | c :: cs =>
    if c = sep then [] :: splitChar sep cs
    else
      match splitChar sep cs with
      | [] => [[c]]
      | l :: ls => (c :: l) :: ls

/-- Parse a non-empty all-digit character list as a decimal natural. -/
def parseNatChars (ds : List Char) : Option Nat :=
  if ds.isEmpty then none
  else if ds.all (·.isDigit) then some (ds.foldl (fun a c => a * 10 + (c.toNat - 48)) 0)
  else none

/-- Parse one `HH:MM:SS,mmm` timestamp into seconds. -/
def parseTimestamp (cs : List Char) : Option ℚ :=
  match splitChar ':' cs with
  | [hh, mm, rest] =>
    match splitChar ',' rest with
    | [ss, mmm] =>
      match parseNatChars hh, parseNatChars mm, parseNatChars ss, parseNatChars mmm with
      | some h, some m, some s, some ms =>
        some ((h : ℚ) * 3600 + (m : ℚ) * 60 + (s : ℚ) + (ms : ℚ) / 1000)
      | _, _, _, _ => none
    | _ => none
  | _ => none

/-- Parse a `start --> end` line. -/
def parseTimeLine (cs : List Char) : Option (ℚ × ℚ) :=
  match splitChar ' ' cs with
  | [t1, arrow, t2] =>
    if arrow = ['-', '-', '>'] then
      match parseTimestamp t1, parseTimestamp t2 with
      | some a, some b => some (a, b)
      | _, _ => none
    else none
  | _ => none

/-- Parse the line sequence of an SRT file as subtitle blocks: each block is
an index line, a time line, a text line and a blank line; a lone trailing
empty line (from the final newline) ends the input. -/
def parseBlocks : List (List Char) → Option (List SubtitleCue)
  | [] => some []
  | [idx] => if idx = [] then some [] else none
  | idx :: time :: text :: blank :: rest =>
    if blank = [] then
      match parseNatChars idx, parseTimeLine time, parseBlocks rest with
      | some n, some ab, some cs => some (⟨n, ab.1, ab.2, String.mk text⟩ :: cs)
      | _, _, _ => none
    else none
  | _ => none

/-- The conformant reader: split the file into lines and parse the blocks. -/
def parseSrt (s : String) : Option (List SubtitleCue) :=
  parseBlocks (splitChar '\n' s.data)

/-- Truncation of a time value to millisecond precision. -/
def msTrunc (q : ℚ) : ℚ :=
  (⌊q * 1000⌋ : ℚ) / 1000

/-! ## Spec-side descriptions (for refinement statements) -/

/-- Spec-side renderer of §4.1: hours = floor(seconds/3600), minutes =
floor((seconds mod 3600)/60), secs = floor(seconds mod 60), millis =
floor((seconds − floor(seconds)) × 1000), rendered `HH:MM:SS,mmm` with
zero-padding to widths 2/2/2/3. -/
def format_time_spec (q : ℚ) : String :=
  zeroPad 2 (natRepr (⌊q / 3600⌋).toNat) ++ ":"
    ++ zeroPad 2 (natRepr (⌊(q - 3600 * ⌊q / 3600⌋) / 60⌋).toNat) ++ ":"
    ++ zeroPad 2 (natRepr (⌊q - 60 * ⌊q / 60⌋⌋).toNat) ++ ","
    ++ zeroPad 3 (natRepr (⌊(q - ⌊q⌋) * 1000⌋).toNat)

/-- Partition of a word list into consecutive windows of up to `m` words
(the final window may be shorter), following the spec's word-windowed
policy.  The fuel argument keeps the recursion structural; `chunksSpec`
instantiates it with the list length. -/
def chunksAux (m : Nat) : Nat → List Word → List (List Word)
  | _, [] => []
  | 0, _ :: _ => []
  | fuel + 1, w :: ws => (w :: ws.take (m - 1)) :: chunksAux m fuel (ws.drop (m - 1))

/-- The spec's window partition of a word list. -/
def chunksSpec (m : Nat) (l : List Word) : List (List Word) :=
  chunksAux m l.length l

/-- The start of a window's first word (0 for an empty window, which never
arises for the windows of a non-empty word list). -/
def headStart (c : List Word) : ℚ :=
  (c.head?.map (·.start)).getD 0

/-- The end of a window's last word. -/
def lastEnd (c : List Word) : ℚ :=
  (c.getLast?.map (·.«end»)).getD 0

/-- The cue the spec prescribes for one window: start of the first word, end
of the last word, concatenated word texts with no separator, stripped. -/
def cueOfWindow (n : Nat) (c : List Word) : SubtitleCue :=
  ⟨n, headStart c, lastEnd c, pyStrip (String.join (c.map (·.word)))⟩

/-- The cue sequence the spec prescribes for a window sequence, numbering
consecutively from `n`. -/
def cuesOfWindows (n : Nat) : List (List Word) → List SubtitleCue
  | [] => []
  | c :: cs => cueOfWindow n c :: cuesOfWindows (n + 1) cs

/-! ## Basic facts about the Python primitives -/

theorem pyInt_eq_floor {x : ℚ} (h : 0 ≤ x) : pyInt x = ⌊x⌋ := by
  unfold pyInt
  rw [if_neg (not_lt.2 h)]

theorem pyFormatInt_eq {n : Int} (h : 0 ≤ n) (w : Nat) :
    pyFormatInt w n = zeroPad w (natRepr n.toNat) := by
  unfold pyFormatInt
  rw [if_neg (not_lt.2 h)]

theorem floor_nonneg_of_nonneg {x : ℚ} (h : 0 ≤ x) : 0 ≤ ⌊x⌋ :=
  Int.le_floor.mpr (by exact_mod_cast h)

theorem pyMod_nonneg (x : ℚ) {y : ℚ} (hy : 0 < y) : 0 ≤ pyMod x y := by
  have h := Int.sub_floor_div_mul_nonneg x hy
  have hc : y * ((⌊x / y⌋ : ℤ) : ℚ) = ((⌊x / y⌋ : ℤ) : ℚ) * y := mul_comm _ _
  unfold pyMod
  linarith

/-! ## Claim C2: timestamp formatting -/

theorem format_srt_time_eq_spec (q : ℚ) (hq : 0 ≤ q) :
    format_srt_time q = format_time_spec q := by
  have h1 : (0:ℚ) ≤ q / 3600 := by positivity
  have h2 : (0:ℚ) ≤ pyMod q 3600 := pyMod_nonneg q (by norm_num)
  have h3 : (0:ℚ) ≤ pyMod q 3600 / 60 := by positivity
  have h4 : (0:ℚ) ≤ pyMod q 60 := pyMod_nonneg q (by norm_num)
  have h5 : (0:ℚ) ≤ (q - (⌊q⌋ : ℚ)) * 1000 := by
    have := Int.floor_le q
    nlinarith
  have g1 : (0:ℚ) ≤ ((⌊q / 3600⌋ : ℤ) : ℚ) := by
    exact_mod_cast floor_nonneg_of_nonneg h1
  have g2 : (0:ℚ) ≤ ((⌊pyMod q 3600 / 60⌋ : ℤ) : ℚ) := by
    exact_mod_cast floor_nonneg_of_nonneg h3
  unfold format_srt_time pyFloorDiv
  rw [pyInt_eq_floor hq, pyInt_eq_floor g1, pyInt_eq_floor g2, pyInt_eq_floor h4,
    pyInt_eq_floor h5, Int.floor_intCast, Int.floor_intCast]
  rw [pyFormatInt_eq (floor_nonneg_of_nonneg h1), pyFormatInt_eq (floor_nonneg_of_nonneg h3),
    pyFormatInt_eq (floor_nonneg_of_nonneg h4), pyFormatInt_eq (floor_nonneg_of_nonneg h5)]
  unfold format_time_spec pyMod
  rfl

/-- C2.  Timestamp formatting: for every non-negative seconds value,
`format_srt_time seconds` equals the rendering of hours =
floor(seconds/3600), minutes = floor((seconds mod 3600)/60), secs =
floor(seconds mod 60), millis = floor((seconds − floor(seconds)) × 1000)
as `HH:MM:SS,mmm` with hours/minutes/seconds zero-padded to width 2 and
milliseconds to width 3, truncating sub-millisecond fractions. -/
theorem c2_timestamp_formatting (q : ℚ) (hq : 0 ≤ q) :
    format_srt_time q = format_time_spec q :=
  format_srt_time_eq_spec q hq

/-- Witness for C2 at the claim's concrete inputs. -/
theorem c2_timestamp_formatting_witness :
    format_srt_time 0 = "00:00:00,000"
      ∧ format_srt_time (3661.2345 : ℚ) = "01:01:01,234"
      ∧ format_srt_time (59.999 : ℚ) = "00:00:59,999" := by
  refine ⟨?_, ?_, ?_⟩
  · rw [c2_timestamp_formatting 0 le_rfl]
    have f1 : ⌊(0:ℚ) / 3600⌋ = 0 := by rw [Int.floor_eq_iff]; norm_num
    have f2 : ⌊(0:ℚ) / 60⌋ = 0 := by rw [Int.floor_eq_iff]; norm_num
    have f3 : ⌊(0:ℚ)⌋ = 0 := by rw [Int.floor_eq_iff]; norm_num
    have f4 : ⌊((0:ℚ) - 3600 * ((0:ℤ):ℚ)) / 60⌋ = 0 := by rw [Int.floor_eq_iff]; norm_num
    have f5 : ⌊(0:ℚ) - 60 * ((0:ℤ):ℚ)⌋ = 0 := by rw [Int.floor_eq_iff]; norm_num
    have f6 : ⌊((0:ℚ) - ((0:ℤ):ℚ)) * 1000⌋ = 0 := by rw [Int.floor_eq_iff]; norm_num
    simp only [format_time_spec, f1, f2, f3, f4, f5, f6]
    rfl
  · rw [c2_timestamp_formatting _ (by norm_num)]
    have f1 : ⌊(3661.2345:ℚ) / 3600⌋ = 1 := by rw [Int.floor_eq_iff]; norm_num
    have f2 : ⌊(3661.2345:ℚ) / 60⌋ = 61 := by rw [Int.floor_eq_iff]; norm_num
    have f3 : ⌊(3661.2345:ℚ)⌋ = 3661 := by rw [Int.floor_eq_iff]; norm_num
    have f4 : ⌊((3661.2345:ℚ) - 3600 * ((1:ℤ):ℚ)) / 60⌋ = 1 := by
      rw [Int.floor_eq_iff]; norm_num
    have f5 : ⌊(3661.2345:ℚ) - 60 * ((61:ℤ):ℚ)⌋ = 1 := by rw [Int.floor_eq_iff]; norm_num
    have f6 : ⌊((3661.2345:ℚ) - ((3661:ℤ):ℚ)) * 1000⌋ = 234 := by
      rw [Int.floor_eq_iff]; norm_num
    simp only [format_time_spec, f1, f2, f3, f4, f5, f6]
    rfl
  · rw [c2_timestamp_formatting _ (by norm_num)]
    have f1 : ⌊(59.999:ℚ) / 3600⌋ = 0 := by rw [Int.floor_eq_iff]; norm_num
    have f2 : ⌊(59.999:ℚ) / 60⌋ = 0 := by rw [Int.floor_eq_iff]; norm_num
    have f3 : ⌊(59.999:ℚ)⌋ = 59 := by rw [Int.floor_eq_iff]; norm_num
    have f4 : ⌊((59.999:ℚ) - 3600 * ((0:ℤ):ℚ)) / 60⌋ = 0 := by
      rw [Int.floor_eq_iff]; norm_num
    have f5 : ⌊(59.999:ℚ) - 60 * ((0:ℤ):ℚ)⌋ = 59 := by rw [Int.floor_eq_iff]; norm_num
    have f6 : ⌊((59.999:ℚ) - ((59:ℤ):ℚ)) * 1000⌋ = 999 := by
      rw [Int.floor_eq_iff]; norm_num
    simp only [format_time_spec, f1, f2, f3, f4, f5, f6]
    rfl

/-! ## Claim C3: whole-segment policy -/

/-- The cue list the whole-segment policy yields from consecutive caption
number `n` on: one cue per segment, times copied, text stripped. -/
def wholeCues (n : Nat) : List Segment → List SubtitleCue
  | [] => []
  | s :: rest => ⟨n, s.start, s.«end», pyStrip s.text⟩ :: wholeCues (n + 1) rest

theorem segmentCues_none (n : Nat) (seg : Segment) :
    segmentCues n none seg = some [wholeCue n seg] := rfl

theorem transcribeLoop_none (segs : List Segment) :
    ∀ n, transcribeLoop none n segs = some (wholeCues n segs) := by
  induction segs with
  | nil => intro n; rfl
  | cons s rest ih =>
    intro n
    simp [transcribeLoop, segmentCues_none, ih, wholeCues, wholeCue]

theorem wholeCues_eq_mapIdx (segs : List Segment) :
    ∀ n, wholeCues n segs =
      segs.mapIdx fun i s => ⟨n + i, s.start, s.«end», pyStrip s.text⟩ := by
  induction segs with
  | nil => intro n; rfl
  | cons s rest ih =>
    intro n
    rw [wholeCues, ih (n + 1), List.mapIdx_cons]
    have he : (fun i (x : Segment) =>
          (⟨n + 1 + i, x.start, x.«end», pyStrip x.text⟩ : SubtitleCue))
        = fun i x => ⟨n + (i + 1), x.start, x.«end», pyStrip x.text⟩ := by
      funext i x
      congr 1
      omega
    rw [he]
    simp

/-- C3.  Whole-segment policy: with `max_words` absent the output has one
cue per input segment, in order, with indices 1..N, times copied from the
segment and text stripped of leading/trailing whitespace. -/
theorem c3_whole_segment_policy (segs : List Segment) :
    transcribe_to_srt segs none =
      some (segs.mapIdx fun i s => ⟨i + 1, s.start, s.«end», pyStrip s.text⟩) := by
  rw [transcribe_to_srt, transcribeLoop_none segs 1, wholeCues_eq_mapIdx segs 1]
  have he : (fun i (x : Segment) =>
        (⟨1 + i, x.start, x.«end», pyStrip x.text⟩ : SubtitleCue))
      = fun i x => ⟨i + 1, x.start, x.«end», pyStrip x.text⟩ := by
    funext i x
    congr 1
    omega
  rw [he]

/-! ## Claim C4: index contiguity -/

theorem cueOfChunk_index {n : Nat} {chunk : List Word} {c : SubtitleCue}
    (h : cueOfChunk n chunk = some c) : c.index = n := by
  unfold cueOfChunk at h
  cases h1 : chunk.head? with
  | none => rw [h1] at h; simp at h
  | some w0 =>
    rw [h1] at h
    cases h2 : chunk.getLast? with
    | none => rw [h2] at h; simp at h
    | some wl =>
      rw [h2] at h
      simp only [Option.some.injEq] at h
      rw [← h]

theorem windowLoop_indices (words : List Word) (m : Nat) :
    ∀ (is : List Nat) (n : Nat) (cs : List SubtitleCue),
      windowLoop words m n is = some cs →
        cs.map (·.index) = List.range' n cs.length := by
  intro is
  induction is with
  | nil =>
    intro n cs h
    cases h
    rfl
  | cons i is ih =>
    intro n cs h
    unfold windowLoop at h
    cases hc : cueOfChunk n (chunkAt words i m) with
    | none => rw [hc] at h; simp at h
    | some cue =>
      rw [hc] at h
      cases hr : windowLoop words m (n + 1) is with
      | none => rw [hr] at h; simp at h
      | some rest =>
        rw [hr] at h
        simp only [Option.some.injEq] at h
        subst h
        simp only [List.map_cons, List.length_cons, List.range'_succ]
        rw [cueOfChunk_index hc, ih (n + 1) rest hr]

theorem segmentCues_indices {n : Nat} {mw : Option Int} {seg : Segment}
    {cs : List SubtitleCue} (h : segmentCues n mw seg = some cs) :
    cs.map (·.index) = List.range' n cs.length := by
  unfold segmentCues at h
  by_cases hg : windowGuard mw seg.words
  · rw [if_pos hg] at h
    exact windowLoop_indices _ _ _ _ _ h
  · rw [if_neg hg] at h
    cases h
    rfl

theorem transcribeLoop_indices {mw : Option Int} :
    ∀ (segs : List Segment) (n : Nat) (cues : List SubtitleCue),
      transcribeLoop mw n segs = some cues →
        cues.map (·.index) = List.range' n cues.length := by
  intro segs
  induction segs with
  | nil =>
    intro n cues h
    cases h
    rfl
  | cons s rest ih =>
    intro n cues h
    unfold transcribeLoop at h
    cases hc : segmentCues n mw s with
    | none => rw [hc] at h; simp at h
    | some cs =>
      rw [hc] at h
      dsimp only at h
      cases hr : transcribeLoop mw (n + cs.length) rest with
      | none => rw [hr] at h; simp at h
      | some more =>
        rw [hr] at h
        simp only [Option.some.injEq] at h
        subst h
        rw [List.map_append, segmentCues_indices hc, ih _ _ hr, List.length_append]
        have := List.range'_append n cs.length more.length 1
        rw [Nat.one_mul] at this
        rw [this, Nat.add_comm more.length cs.length]

/-- C4.  Index contiguity: the cue indices of one synthesis run form the
contiguous run 1, 2, ..., K where K is the number of cues emitted,
whatever the `max_words` setting and the segments' chunking policies. -/
theorem c4_index_contiguity (segs : List Segment) (mw : Option Int)
    (cues : List SubtitleCue) (h : transcribe_to_srt segs mw = some cues) :
    cues.map (·.index) = List.range' 1 cues.length :=
  transcribeLoop_indices segs 1 cues h

/-- Witness for C4: a run mixing both policies (first segment
word-windowed with `max_words = 1`, second whole) emits indices 1, 2, 3. -/
theorem c4_index_contiguity_witness :
    transcribe_to_srt
        [⟨0, 1, " a b", [⟨0, 0.5, " a"⟩, ⟨0.5, 1, " b"⟩]⟩, ⟨2, 3, " ok ", []⟩]
        (some 1)
      = some [⟨1, 0, 0.5, "a"⟩, ⟨2, 0.5, 1, "b"⟩, ⟨3, 2, 3, "ok"⟩]
    ∧ [(⟨1, 0, 0.5, "a"⟩ : SubtitleCue), ⟨2, 0.5, 1, "b"⟩, ⟨3, 2, 3, "ok"⟩].map
        (·.index) = [1, 2, 3] := by
  have h : transcribe_to_srt
      [⟨0, 1, " a b", [⟨0, 0.5, " a"⟩, ⟨0.5, 1, " b"⟩]⟩, ⟨2, 3, " ok ", []⟩]
      (some 1)
      = some [⟨1, 0, 0.5, "a"⟩, ⟨2, 0.5, 1, "b"⟩, ⟨3, 2, 3, "ok"⟩] := rfl
  refine ⟨h, ?_⟩
  rw [c4_index_contiguity _ _ _ h]
  rfl

/-! ## The window partition: `range(0, len(words), max_words)` slices -/

theorem chunksAux_nil (m fuel : Nat) : chunksAux m fuel [] = [] := by
  cases fuel <;> rfl

theorem chunksAux_congr (m : Nat) :
    ∀ (fuel fuel' : Nat) (l : List Word), l.length ≤ fuel → l.length ≤ fuel' →
      chunksAux m fuel l = chunksAux m fuel' l := by
  intro fuel
  induction fuel with
  | zero =>
    intro fuel' l h h'
    cases l with
    | nil => rw [chunksAux_nil, chunksAux_nil]
    | cons w ws => simp at h
  | succ fuel ih =>
    intro fuel' l h h'
    cases l with
    | nil => rw [chunksAux_nil, chunksAux_nil]
    | cons w ws =>
      cases fuel' with
      | zero => simp at h'
      | succ fuel'' =>
        show (w :: ws.take (m - 1)) :: chunksAux m fuel (ws.drop (m - 1))
            = (w :: ws.take (m - 1)) :: chunksAux m fuel'' (ws.drop (m - 1))
        have hd : (ws.drop (m - 1)).length ≤ ws.length := by
          rw [List.length_drop]
          omega
        have hlen : ws.length + 1 ≤ fuel + 1 := h
        have hlen' : ws.length + 1 ≤ fuel'' + 1 := h'
        rw [ih fuel'' (ws.drop (m - 1)) (by omega) (by omega)]

theorem chunksSpec_nil (m : Nat) : chunksSpec m [] = [] := rfl

theorem chunksSpec_cons (m : Nat) (w : Word) (ws : List Word) :
    chunksSpec m (w :: ws) = (w :: ws.take (m - 1)) :: chunksSpec m (ws.drop (m - 1)) := by
  show (w :: ws.take (m - 1)) :: chunksAux m ws.length (ws.drop (m - 1))
      = (w :: ws.take (m - 1)) :: chunksSpec m (ws.drop (m - 1))
  unfold chunksSpec
  have hd : (ws.drop (m - 1)).length ≤ ws.length := by
    rw [List.length_drop]
    omega
  rw [chunksAux_congr m ws.length (ws.drop (m - 1)).length (ws.drop (m - 1)) hd le_rfl]

theorem chunksSpec_flatten (m : Nat) (hm : 1 ≤ m) :
    ∀ (fuel : Nat) (l : List Word), l.length ≤ fuel → (chunksSpec m l).flatten = l := by
  intro fuel
  induction fuel with
  | zero =>
    intro l h
    cases l with
    | nil => rfl
    | cons w ws => simp at h
  | succ fuel ih =>
    intro l h
    cases l with
    | nil => rfl
    | cons w ws =>
      rw [chunksSpec_cons, List.flatten_cons, ih (ws.drop (m - 1)) (by
        rw [List.length_drop]
        simp only [List.length_cons] at h
        omega)]
      rw [List.cons_append, List.take_append_drop]

theorem chunksSpec_ne_nil (m : Nat) :
    ∀ (fuel : Nat) (l : List Word), l.length ≤ fuel →
      ∀ c ∈ chunksSpec m l, c ≠ [] := by
  intro fuel
  induction fuel with
  | zero =>
    intro l h c hc
    cases l with
    | nil => simp [chunksSpec_nil] at hc
    | cons w ws => simp at h
  | succ fuel ih =>
    intro l h c hc
    cases l with
    | nil => simp [chunksSpec_nil] at hc
    | cons w ws =>
      rw [chunksSpec_cons] at hc
      rcases List.mem_cons.mp hc with rfl | hmem
      · simp
      · exact ih (ws.drop (m - 1)) (by
          rw [List.length_drop]
          simp only [List.length_cons] at h
          omega) c hmem

theorem chunksSpec_length_le (m : Nat) (hm : 1 ≤ m) :
    ∀ (fuel : Nat) (l : List Word), l.length ≤ fuel →
      ∀ c ∈ chunksSpec m l, c.length ≤ m := by
  intro fuel
  induction fuel with
  | zero =>
    intro l h c hc
    cases l with
    | nil => simp [chunksSpec_nil] at hc
    | cons w ws => simp at h
  | succ fuel ih =>
    intro l h c hc
    cases l with
    | nil => simp [chunksSpec_nil] at hc
    | cons w ws =>
      rw [chunksSpec_cons] at hc
      rcases List.mem_cons.mp hc with rfl | hmem
      · simp only [List.length_cons, List.length_take]
        omega
      · exact ih (ws.drop (m - 1)) (by
          rw [List.length_drop]
          simp only [List.length_cons] at h
          omega) c hmem

theorem chunksSpec_dropLast_length (m : Nat) (hm : 1 ≤ m) :
    ∀ (fuel : Nat) (l : List Word), l.length ≤ fuel →
      ∀ c ∈ (chunksSpec m l).dropLast, c.length = m := by
  intro fuel
  induction fuel with
  | zero =>
    intro l h c hc
    cases l with
    | nil => simp [chunksSpec_nil] at hc
    | cons w ws => simp at h
  | succ fuel ih =>
    intro l h c hc
    cases l with
    | nil => simp [chunksSpec_nil] at hc
    | cons w ws =>
      rw [chunksSpec_cons] at hc
      cases htl : chunksSpec m (ws.drop (m - 1)) with
      | nil => rw [htl] at hc; simp at hc
      | cons c' cs' =>
        rw [htl, List.dropLast_cons₂] at hc
        rcases List.mem_cons.mp hc with rfl | hmem
        · -- the remainder is non-empty, so this window is full
          have hne : ws.drop (m - 1) ≠ [] := by
            intro he
            rw [he, chunksSpec_nil] at htl
            exact List.noConfusion htl
          have hlen : m - 1 < ws.length := by
            by_contra hcon
            exact hne (List.drop_eq_nil_of_le (by omega))
          simp only [List.length_cons, List.length_take]
          omega
        · rw [← htl] at hmem
          exact ih (ws.drop (m - 1)) (by
            rw [List.length_drop]
            simp only [List.length_cons] at h
            omega) c hmem

theorem rangeStepPos_zero (m : Nat) : rangeStepPos 0 m = [] := by
  unfold rangeStepPos
  cases m with
  | zero => rfl
  | succ k =>
    rw [Nat.div_eq_of_lt (by omega)]
    rfl

theorem rangeStepPos_succ {m : Nat} (hm : 1 ≤ m) {L : Nat} (hL : 0 < L) :
    rangeStepPos L m = 0 :: (rangeStepPos (L - m) m).map (· + m) := by
  unfold rangeStepPos
  have e1 : L + m - 1 = (L - 1) + m := by omega
  rw [e1, Nat.add_div_right _ (by omega)]
  have e2 : (L - m + m - 1) / m = (L - 1) / m := by
    rcases Nat.lt_or_ge L m with hlt | hge
    · have h0 : L - m = 0 := by omega
      rw [h0, Nat.div_eq_of_lt (by omega), Nat.div_eq_of_lt (by omega)]
    · have h1 : L - m + m - 1 = L - 1 := by omega
      rw [h1]
  rw [← e2, List.range_succ_eq_map, List.map_cons, List.map_map, List.map_map]
  have hf : (fun k => k * m) ∘ Nat.succ = (fun i => i + m) ∘ fun k => k * m := by
    funext k
    simp [Function.comp, Nat.succ_mul]
  rw [hf]
  simp

theorem chunkAt_zero {m : Nat} (hm : 1 ≤ m) (w : Word) (ws : List Word) :
    chunkAt (w :: ws) 0 m = w :: ws.take (m - 1) := by
  unfold chunkAt
  cases m with
  | zero => omega
  | succ k =>
    rw [List.drop_zero, List.take_succ_cons]
    rfl

theorem chunkAt_shift {m : Nat} (hm : 1 ≤ m) (w : Word) (ws : List Word) (i : Nat) :
    chunkAt (w :: ws) (i + m) m = chunkAt (ws.drop (m - 1)) i m := by
  unfold chunkAt
  rw [Nat.add_comm i m, ← List.drop_drop]
  congr 2
  cases m with
  | zero => omega
  | succ k => simp [List.drop_succ_cons]

/-- The chunk sequence the code's `range` loop slices is exactly the spec's
window partition. -/
theorem code_chunks_eq_chunksSpec {m : Nat} (hm : 1 ≤ m) :
    ∀ (fuel : Nat) (words : List Word), words.length ≤ fuel →
      (rangeStepPos words.length m).map (fun i => chunkAt words i m)
        = chunksSpec m words := by
  intro fuel
  induction fuel with
  | zero =>
    intro words h
    cases words with
    | nil => simp only [List.length_nil, rangeStepPos_zero, List.map_nil, chunksSpec_nil]
    | cons w ws => simp at h
  | succ fuel ih =>
    intro words h
    cases words with
    | nil => simp only [List.length_nil, rangeStepPos_zero, List.map_nil, chunksSpec_nil]
    | cons w ws =>
      rw [List.length_cons, rangeStepPos_succ hm (by omega), List.map_cons, List.map_map,
        chunksSpec_cons, chunkAt_zero hm]
      congr 1
      have hlen : ws.length + 1 - m = (ws.drop (m - 1)).length := by
        rw [List.length_drop]
        omega
      rw [hlen]
      rw [← ih (ws.drop (m - 1)) (by
        rw [List.length_drop]
        simp only [List.length_cons] at h
        omega)]
      apply List.map_congr_left
      intro i hi
      simp only [Function.comp]
      exact chunkAt_shift hm w ws i

/-! ## Window-loop behaviour -/

theorem cueOfChunk_of_ne_nil (n : Nat) {chunk : List Word} (hne : chunk ≠ []) :
    cueOfChunk n chunk = some (cueOfWindow n chunk) := by
  unfold cueOfChunk
  cases h1 : chunk.head? with
  | none => exact absurd (List.head?_eq_none_iff.mp h1) hne
  | some w0 =>
    cases h2 : chunk.getLast? with
    | none => exact absurd (List.getLast?_eq_none_iff.mp h2) hne
    | some wl =>
      simp [cueOfWindow, headStart, lastEnd, h1, h2]

theorem windowLoop_spec (words : List Word) (m : Nat) :
    ∀ (is : List Nat) (n : Nat), (∀ i ∈ is, chunkAt words i m ≠ []) →
      windowLoop words m n is
        = some (cuesOfWindows n (is.map fun i => chunkAt words i m)) := by
  intro is
  induction is with
  | nil => intro n _; rfl
  | cons i is ih =>
    intro n h
    unfold windowLoop
    rw [cueOfChunk_of_ne_nil n (h i (List.mem_cons_self i is)),
      ih (n + 1) fun j hj => h j (List.mem_cons_of_mem i hj)]
    rfl

theorem segmentCues_no_words (n : Nat) (mw : Option Int) (seg : Segment)
    (hw : seg.words = []) : segmentCues n mw seg = some [wholeCue n seg] := by
  have hg : windowGuard mw seg.words = false := by
    rw [hw]
    cases mw with
    | none => rfl
    | some m => simp [windowGuard]
  unfold segmentCues
  rw [if_neg (by rw [hg]; simp)]

theorem segmentCues_windowed (n : Nat) {m : Int} (hm : 1 ≤ m) (seg : Segment)
    (hw : seg.words ≠ []) :
    segmentCues n (some m) seg
      = some (cuesOfWindows n (chunksSpec m.toNat seg.words)) := by
  have hm' : 1 ≤ m.toNat := by omega
  have hg : windowGuard (some m) seg.words = true := by
    simp only [windowGuard, Bool.and_eq_true, decide_eq_true_eq, Bool.not_eq_true',
      List.isEmpty_eq_false]
    exact ⟨by omega, hw⟩
  have hne : ∀ i ∈ rangeStepPos seg.words.length m.toNat, chunkAt seg.words i m.toNat ≠ [] := by
    intro i hi
    apply chunksSpec_ne_nil m.toNat seg.words.length seg.words le_rfl
    rw [← code_chunks_eq_chunksSpec hm' seg.words.length seg.words le_rfl]
    exact List.mem_map_of_mem _ hi
  unfold segmentCues
  rw [if_pos hg]
  show windowLoop seg.words m.toNat n (pyRange seg.words.length m) = _
  unfold pyRange
  rw [if_pos (by omega : (0:Int) < m)]
  rw [windowLoop_spec seg.words m.toNat _ n hne,
    code_chunks_eq_chunksSpec hm' seg.words.length seg.words le_rfl]

/-! ## Claim C10: window non-emptiness safety -/

/-- C10.  For positive `max_words` and a non-empty word list, every chunk
`words[i : i + max_words]` visited by the loop `range(0, len(words),
max_words)` is non-empty (so `chunk[0]` and `chunk[-1]` are in bounds and
the error branch of the loop body is unreachable), and together the chunks
cover every word exactly once, in order. -/
theorem c10_window_safety (m : Nat) (hm : 1 ≤ m) (words : List Word)
    (hw : words ≠ []) :
    (∀ i ∈ rangeStepPos words.length m, chunkAt words i m ≠ [])
    ∧ ((rangeStepPos words.length m).map fun i => chunkAt words i m).flatten = words
    ∧ ∀ n, (windowLoop words m n (rangeStepPos words.length m)).isSome = true := by
  have hchunks := code_chunks_eq_chunksSpec hm words.length words le_rfl
  have hne : ∀ i ∈ rangeStepPos words.length m, chunkAt words i m ≠ [] := by
    intro i hi
    apply chunksSpec_ne_nil m words.length words le_rfl
    rw [← hchunks]
    exact List.mem_map_of_mem _ hi
  refine ⟨hne, ?_, ?_⟩
  · rw [hchunks]
    exact chunksSpec_flatten m hm words.length words le_rfl
  · intro n
    rw [windowLoop_spec words m _ n hne]
    rfl

/-- Witness for C10 at `max_words = 2` over a three-word list. -/
theorem c10_window_safety_witness :
    (((rangeStepPos 3 2).map fun i =>
        chunkAt [⟨0, 0.5, "Hi"⟩, ⟨0.5, 1, " there"⟩, ⟨1, 1.6, " friend"⟩] i 2).flatten
      = [⟨0, 0.5, "Hi"⟩, ⟨0.5, 1, " there"⟩, ⟨1, 1.6, " friend"⟩])
    ∧ (windowLoop [⟨0, 0.5, "Hi"⟩, ⟨0.5, 1, " there"⟩, ⟨1, 1.6, " friend"⟩] 2 1
        (rangeStepPos 3 2)).isSome = true := by
  have h := c10_window_safety 2 (by norm_num)
    [⟨0, 0.5, "Hi"⟩, ⟨0.5, 1, " there"⟩, ⟨1, 1.6, " friend"⟩] (by simp)
  exact ⟨h.2.1, h.2.2 1⟩

/-! ## Claim C1: word-windowed policy -/

/-- C1.  Word-windowed policy: for a segment carrying a non-empty word
sequence and positive `max_words`, synthesis partitions the words into
consecutive windows of at most `max_words` words (the flattening of the
windows is the word sequence, every window is non-empty and at most
`max_words` long, and every window except possibly the final one is
exactly `max_words` long), and emits one cue per window, numbered
consecutively, whose start is the window's first word's start, end the
window's last word's end, and text the separator-free concatenation of
the window's word texts, stripped. -/
theorem c1_word_windowed_policy (seg : Segment) (m : Int) (n : Nat)
    (hm : 1 ≤ m) (hw : seg.words ≠ []) :
    segmentCues n (some m) seg
        = some (cuesOfWindows n (chunksSpec m.toNat seg.words))
    ∧ (chunksSpec m.toNat seg.words).flatten = seg.words
    ∧ (∀ c ∈ chunksSpec m.toNat seg.words, c ≠ [] ∧ c.length ≤ m.toNat)
    ∧ ∀ c ∈ (chunksSpec m.toNat seg.words).dropLast, c.length = m.toNat := by
  have hm' : 1 ≤ m.toNat := by omega
  refine ⟨segmentCues_windowed n hm seg hw, ?_, ?_, ?_⟩
  · exact chunksSpec_flatten m.toNat hm' seg.words.length seg.words le_rfl
  · intro c hc
    exact ⟨chunksSpec_ne_nil m.toNat seg.words.length seg.words le_rfl c hc,
      chunksSpec_length_le m.toNat hm' seg.words.length seg.words le_rfl c hc⟩
  · exact chunksSpec_dropLast_length m.toNat hm' seg.words.length seg.words le_rfl

/-- Witness for C1 at the claim's example: words
`[{0.0,0.5,"Hi"},{0.5,1.0," there"},{1.0,1.6," friend"}]`, `max_words = 2`. -/
theorem c1_word_windowed_policy_witness :
    segmentCues 1 (some 2)
        ⟨0, 1.6, " Hi there friend",
          [⟨0, 0.5, "Hi"⟩, ⟨0.5, 1, " there"⟩, ⟨1, 1.6, " friend"⟩]⟩
      = some [⟨1, 0, 1, "Hi there"⟩, ⟨2, 1, 1.6, "friend"⟩]
    ∧ transcribe_to_srt
        [⟨0, 1.6, " Hi there friend",
          [⟨0, 0.5, "Hi"⟩, ⟨0.5, 1, " there"⟩, ⟨1, 1.6, " friend"⟩]⟩] (some 2)
      = some [⟨1, 0, 1, "Hi there"⟩, ⟨2, 1, 1.6, "friend"⟩] := by
  have h := c1_word_windowed_policy
    ⟨0, 1.6, " Hi there friend",
      [⟨0, 0.5, "Hi"⟩, ⟨0.5, 1, " there"⟩, ⟨1, 1.6, " friend"⟩]⟩ 2 1
    (by norm_num) (by simp)
  exact ⟨h.1.trans rfl, rfl⟩

/-! ## Claim C5: per-segment policy selection -/

theorem chunksSpec_one : ∀ (fuel : Nat) (l : List Word), l.length ≤ fuel →
    chunksSpec 1 l = l.map fun w => [w] := by
  intro fuel
  induction fuel with
  | zero =>
    intro l h
    cases l with
    | nil => rfl
    | cons w ws => simp at h
  | succ fuel ih =>
    intro l h
    cases l with
    | nil => rfl
    | cons w ws =>
      rw [chunksSpec_cons, List.map_cons]
      simp only [Nat.sub_self, List.take_zero, List.drop_zero]
      rw [ih ws (by simp only [List.length_cons] at h; omega)]

theorem cuesOfWindows_singletons (l : List Word) :
    ∀ n, cuesOfWindows n (l.map fun w => [w])
      = l.mapIdx fun k w => ⟨n + k, w.start, w.«end», pyStrip w.word⟩ := by
  induction l with
  | nil => intro n; rfl
  | cons w ws ih =>
    intro n
    rw [List.map_cons, cuesOfWindows, ih (n + 1), List.mapIdx_cons]
    have he : (fun k (x : Word) =>
          (⟨n + 1 + k, x.start, x.«end», pyStrip x.word⟩ : SubtitleCue))
        = fun k x => ⟨n + (k + 1), x.start, x.«end», pyStrip x.word⟩ := by
      funext k x
      congr 1
      omega
    rw [he]
    simp only [cueOfWindow, headStart, lastEnd]
    rfl

/-- C5.  Per-segment policy selection: with `max_words` a positive integer,
a segment with an empty word sequence is emitted as one whole cue (for any
nonzero `max_words`), a segment with a non-empty word sequence is
word-windowed, and for the claim's two-segment scenario with
`max_words = 1` the first segment splits into one-word cues and the second
becomes one whole cue with the indices continuing contiguously. -/
theorem c5_per_segment_policy_selection :
    (∀ (m : Int) (n : Nat) (seg : Segment), seg.words = [] →
        segmentCues n (some m) seg
          = some [⟨n, seg.start, seg.«end», pyStrip seg.text⟩])
    ∧ (∀ (m : Int) (n : Nat) (seg : Segment), 1 ≤ m → seg.words ≠ [] →
        segmentCues n (some m) seg
          = some (cuesOfWindows n (chunksSpec m.toNat seg.words)))
    ∧ ∀ (seg1 seg2 : Segment), seg1.words ≠ [] → seg2.words = [] →
        transcribe_to_srt [seg1, seg2] (some 1)
          = some ((seg1.words.mapIdx fun k w =>
                ⟨k + 1, w.start, w.«end», pyStrip w.word⟩)
              ++ [⟨seg1.words.length + 1, seg2.start, seg2.«end», pyStrip seg2.text⟩]) := by
  refine ⟨?_, ?_, ?_⟩
  · intro m n seg hw
    exact segmentCues_no_words n (some m) seg hw
  · intro m n seg hm hw
    exact segmentCues_windowed n hm seg hw
  · intro seg1 seg2 hw1 hw2
    have h1 : segmentCues 1 (some 1) seg1
        = some (seg1.words.mapIdx fun k w =>
            ⟨k + 1, w.start, w.«end», pyStrip w.word⟩) := by
      rw [segmentCues_windowed 1 (by norm_num) seg1 hw1]
      rw [show ((1:Int).toNat) = 1 from rfl,
        chunksSpec_one seg1.words.length seg1.words le_rfl,
        cuesOfWindows_singletons seg1.words 1]
      have he : (fun k (x : Word) =>
            (⟨1 + k, x.start, x.«end», pyStrip x.word⟩ : SubtitleCue))
          = fun k x => ⟨k + 1, x.start, x.«end», pyStrip x.word⟩ := by
        funext k x
        congr 1
        omega
      rw [he]
    show transcribeLoop (some 1) 1 [seg1, seg2] = _
    unfold transcribeLoop
    rw [h1]
    dsimp only
    unfold transcribeLoop
    rw [segmentCues_no_words _ (some 1) seg2 hw2]
    dsimp only
    rw [List.length_mapIdx]
    rw [show 1 + seg1.words.length = seg1.words.length + 1 from by omega]
    rfl

/-- Witness for C5: concrete mixed two-segment run with `max_words = 1`. -/
theorem c5_per_segment_policy_selection_witness :
    transcribe_to_srt
        [⟨0, 1, " a b", [⟨0, 0.5, " a"⟩, ⟨0.5, 1, " b"⟩]⟩, ⟨2, 3, " ok ", []⟩]
        (some 1)
      = some [⟨1, 0, 0.5, "a"⟩, ⟨2, 0.5, 1, "b"⟩, ⟨3, 2, 3, "ok"⟩] := by
  have h := c5_per_segment_policy_selection.2.2
    ⟨0, 1, " a b", [⟨0, 0.5, " a"⟩, ⟨0.5, 1, " b"⟩]⟩ ⟨2, 3, " ok ", []⟩
    (by simp) rfl
  exact h.trans rfl

theorem segmentCues_neg (n : Nat) {m : Int} (hm : m < 0) (seg : Segment)
    (hw : seg.words ≠ []) : segmentCues n (some m) seg = some [] := by
  have hg : windowGuard (some m) seg.words = true := by
    simp only [windowGuard, Bool.and_eq_true, decide_eq_true_eq, Bool.not_eq_true',
      List.isEmpty_eq_false]
    exact ⟨by omega, hw⟩
  unfold segmentCues
  rw [if_pos hg]
  show windowLoop seg.words m.toNat n (pyRange seg.words.length m) = _
  unfold pyRange
  rw [if_neg (by omega : ¬ (0:Int) < m)]
  rfl

/-! ## Claim C9: non-positive `max_words` -/

/-- C9.  Non-positive `max_words`: with `max_words = 0` every segment is
emitted under the whole-segment policy (the run equals the `max_words`
absent run); with `max_words` negative, a segment carrying a non-empty
word sequence contributes zero cues (the loop's range is empty), while a
segment without word timing is still emitted whole. -/
theorem c9_nonpositive_max_words :
    (∀ (segs : List Segment) (n : Nat),
        transcribeLoop (some 0) n segs = transcribeLoop none n segs)
    ∧ (∀ (m : Int) (n : Nat) (seg : Segment), m < 0 → seg.words ≠ [] →
        segmentCues n (some m) seg = some [])
    ∧ ∀ (m : Int) (n : Nat) (seg : Segment), m < 0 → seg.words = [] →
        segmentCues n (some m) seg
          = some [⟨n, seg.start, seg.«end», pyStrip seg.text⟩] := by
  refine ⟨?_, ?_, ?_⟩
  · intro segs
    induction segs with
    | nil => intro n; rfl
    | cons s rest ih =>
      intro n
      unfold transcribeLoop
      rw [show segmentCues n (some 0) s = some [wholeCue n s] from rfl, segmentCues_none]
      dsimp only
      rw [ih]
  · intro m n seg hm hw
    exact segmentCues_neg n hm seg hw
  · intro m n seg hm hw
    exact segmentCues_no_words n (some m) seg hw

/-- Witness for C9 at `max_words = 0` and `max_words = -1`. -/
theorem c9_nonpositive_max_words_witness :
    transcribeLoop (some 0) 1 [⟨0, 1, " x", [⟨0, 1, " x"⟩]⟩]
        = transcribeLoop none 1 [⟨0, 1, " x", [⟨0, 1, " x"⟩]⟩]
    ∧ segmentCues 1 (some (-1)) ⟨0, 1, " x", [⟨0, 1, " x"⟩]⟩ = some []
    ∧ segmentCues 1 (some (-1)) ⟨2, 3, " y ", []⟩ = some [⟨1, 2, 3, "y"⟩] := by
  refine ⟨c9_nonpositive_max_words.1 _ 1, ?_, ?_⟩
  · exact c9_nonpositive_max_words.2.1 (-1) 1 ⟨0, 1, " x", [⟨0, 1, " x"⟩]⟩
      (by norm_num) (by simp)
  · exact (c9_nonpositive_max_words.2.2 (-1) 1 ⟨2, 3, " y ", []⟩
      (by norm_num) rfl).trans rfl

/-! ## Claim C6: temporal ordering -/

/-- A segment whose own word sequence is chronological: its time range is
non-degenerate, word starts are in non-decreasing order, and each word
starts within the segment's time range. -/
def WellTimedSegment (seg : Segment) : Prop :=
  seg.start ≤ seg.«end»
    ∧ List.Pairwise (fun a b => a.start ≤ b.start) seg.words
    ∧ ∀ w ∈ seg.words, seg.start ≤ w.start ∧ w.start ≤ seg.«end»

theorem cuesOfWindows_map_start :
    ∀ (chunks : List (List Word)) (n : Nat),
      (cuesOfWindows n chunks).map (·.start) = chunks.map headStart := by
  intro chunks
  induction chunks with
  | nil => intro n; rfl
  | cons c cs ih =>
    intro n
    rw [cuesOfWindows, List.map_cons, List.map_cons, ih (n + 1)]
    rfl

theorem headStart_mem {c : List Word} (hne : c ≠ []) :
    ∃ w ∈ c, headStart c = w.start := by
  cases c with
  | nil => exact absurd rfl hne
  | cons w rest => exact ⟨w, List.mem_cons_self w rest, rfl⟩

theorem chunksSpec_subset {m : Nat} (hm : 1 ≤ m) {l : List Word}
    {c : List Word} (hc : c ∈ chunksSpec m l) {w : Word} (hw : w ∈ c) :
    w ∈ l := by
  rw [← chunksSpec_flatten m hm l.length l le_rfl]
  exact List.mem_flatten.mpr ⟨c, hc, hw⟩

theorem chunksSpec_heads_sorted {m : Nat} (hm : 1 ≤ m) :
    ∀ (fuel : Nat) (l : List Word), l.length ≤ fuel →
      List.Pairwise (fun a b => a.start ≤ b.start) l →
      List.Pairwise (· ≤ ·) ((chunksSpec m l).map headStart) := by
  intro fuel
  induction fuel with
  | zero =>
    intro l h _
    cases l with
    | nil => simp [chunksSpec_nil]
    | cons w ws => simp at h
  | succ fuel ih =>
    intro l h hp
    cases l with
    | nil => simp [chunksSpec_nil]
    | cons w ws =>
      rw [chunksSpec_cons, List.map_cons]
      have hhead : headStart (w :: ws.take (m - 1)) = w.start := rfl
      rw [hhead]
      rw [List.pairwise_cons] at hp ⊢
      obtain ⟨hw_all, hp_ws⟩ := hp
      have hlen : (ws.drop (m - 1)).length ≤ fuel := by
        rw [List.length_drop]
        simp only [List.length_cons] at h
        omega
      have hp_drop : List.Pairwise (fun a b => a.start ≤ b.start) (ws.drop (m - 1)) :=
        List.Pairwise.sublist (List.drop_sublist (m - 1) ws) hp_ws
      refine ⟨?_, ih (ws.drop (m - 1)) hlen hp_drop⟩
      intro q hq
      obtain ⟨c, hc, rfl⟩ := List.mem_map.mp hq
      have hcne : c ≠ [] :=
        chunksSpec_ne_nil m (ws.drop (m - 1)).length (ws.drop (m - 1)) le_rfl c hc
      obtain ⟨w', hw'c, he⟩ := headStart_mem hcne
      rw [he]
      exact hw_all w' (List.mem_of_mem_drop (chunksSpec_subset hm hc hw'c))

theorem segmentCues_starts {n : Nat} {mw : Option Int} {seg : Segment}
    {cs : List SubtitleCue} (hwt : WellTimedSegment seg)
    (h : segmentCues n mw seg = some cs) :
    List.Pairwise (· ≤ ·) (cs.map (·.start))
      ∧ ∀ q ∈ cs.map (·.start), seg.start ≤ q ∧ q ≤ seg.«end» := by
  obtain ⟨hse, hp, hbnd⟩ := hwt
  have hwhole : ∀ (h' : some [wholeCue n seg] = some cs),
      List.Pairwise (· ≤ ·) (cs.map (·.start))
        ∧ ∀ q ∈ cs.map (·.start), seg.start ≤ q ∧ q ≤ seg.«end» := by
    intro h'
    cases h'
    refine ⟨by simp, ?_⟩
    intro q hq
    simp only [List.map_cons, List.map_nil, List.mem_singleton] at hq
    rw [hq]
    exact ⟨le_rfl, hse⟩
  cases mw with
  | none => exact hwhole ((segmentCues_none n seg).symm.trans h)
  | some m =>
    by_cases hw : seg.words = []
    · exact hwhole ((segmentCues_no_words n (some m) seg hw).symm.trans h)
    · rcases lt_trichotomy m 0 with hm | hm | hm
      · rw [segmentCues_neg n hm seg hw] at h
        cases h
        exact ⟨by simp, by simp⟩
      · subst hm
        have hz : segmentCues n (some 0) seg = some [wholeCue n seg] := by
          have hg : windowGuard (some 0) seg.words = false := by
            simp [windowGuard]
          unfold segmentCues
          rw [if_neg (by rw [hg]; simp)]
        exact hwhole (hz.symm.trans h)
      · have hm1 : 1 ≤ m := hm
        rw [segmentCues_windowed n hm1 seg hw] at h
        cases h
        have hm' : 1 ≤ m.toNat := by omega
        rw [cuesOfWindows_map_start]
        refine ⟨chunksSpec_heads_sorted hm' seg.words.length seg.words le_rfl hp, ?_⟩
        intro q hq
        obtain ⟨c, hc, rfl⟩ := List.mem_map.mp hq
        have hcne : c ≠ [] :=
          chunksSpec_ne_nil m.toNat seg.words.length seg.words le_rfl c hc
        obtain ⟨w', hw'c, he⟩ := headStart_mem hcne
        rw [he]
        exact hbnd w' (chunksSpec_subset hm' hc hw'c)

theorem transcribeLoop_starts {mw : Option Int} :
    ∀ (segs : List Segment) (n : Nat) (cues : List SubtitleCue),
      (∀ seg ∈ segs, WellTimedSegment seg) →
      List.Chain' (fun a b => a.«end» ≤ b.start) segs →
      transcribeLoop mw n segs = some cues →
        List.Pairwise (· ≤ ·) (cues.map (·.start))
          ∧ ∀ q ∈ cues.map (·.start), ∀ s0 ∈ segs.head?, s0.start ≤ q := by
  intro segs
  induction segs with
  | nil =>
    intro n cues _ _ h
    cases h
    exact ⟨by simp, by simp⟩
  | cons s rest ih =>
    intro n cues hwt hch h
    unfold transcribeLoop at h
    cases hc : segmentCues n mw s with
    | none => rw [hc] at h; simp at h
    | some cs =>
      rw [hc] at h
      dsimp only at h
      cases hr : transcribeLoop mw (n + cs.length) rest with
      | none => rw [hr] at h; simp at h
      | some more =>
        rw [hr] at h
        simp only [Option.some.injEq] at h
        subst h
        have hs := segmentCues_starts (hwt s (List.mem_cons_self s rest)) hc
        rw [List.chain'_cons'] at hch
        obtain ⟨hlink, hch_rest⟩ := hch
        have hrest := ih (n + cs.length) more
          (fun seg hseg => hwt seg (List.mem_cons_of_mem s hseg)) hch_rest hr
        have hcross : ∀ x ∈ cs.map (·.start), ∀ y ∈ more.map (·.start), x ≤ y := by
          intro x hx y hy
          cases hrest' : rest with
          | nil =>
            subst hrest'
            cases hr
            simp at hy
          | cons s1 rest' =>
            have hy1 : s1.start ≤ y := by
              apply hrest.2 y hy
              rw [hrest']
              rfl
            have hx1 : x ≤ s.«end» := (hs.2 x hx).2
            have hlink1 : s.«end» ≤ s1.start := by
              apply hlink
              rw [hrest']
              rfl
            linarith
        rw [List.map_append]
        constructor
        · rw [List.pairwise_append]
          exact ⟨hs.1, hrest.1, hcross⟩
        · intro q hq s0 hs0
          simp only [List.head?_cons, Option.mem_def, Option.some.injEq] at hs0
          subst hs0
          rcases List.mem_append.mp hq with hq1 | hq2
          · exact (hs.2 q hq1).1
          · cases hrest' : rest with
            | nil =>
              subst hrest'
              cases hr
              simp at hq2
            | cons s1 rest' =>
              have hy1 : s1.start ≤ q := by
                apply hrest.2 q hq2
                rw [hrest']
                rfl
              have hlink1 : s.«end» ≤ s1.start := by
                apply hlink
                rw [hrest']
                rfl
              have := (hwt s (List.mem_cons_self s rest)).1
              linarith

/-- C6.  Temporal ordering: if the input segments arrive in non-decreasing
time order (each segment's range precedes the next segment's start, and
each range is non-degenerate) and each segment's word sequence is
chronological, then across the full output of one synthesis run the cue
start times are non-decreasing. -/
theorem c6_temporal_ordering (segs : List Segment) (mw : Option Int)
    (cues : List SubtitleCue) (hwt : ∀ seg ∈ segs, WellTimedSegment seg)
    (hord : List.Chain' (fun a b => a.«end» ≤ b.start) segs)
    (h : transcribe_to_srt segs mw = some cues) :
    List.Sorted (· ≤ ·) (cues.map (·.start)) :=
  (transcribeLoop_starts segs 1 cues hwt hord h).1

/-- Witness for C6: a windowed segment followed by a whole segment, cue
starts 0, 0.5, 2. -/
theorem c6_temporal_ordering_witness :
    List.Sorted (· ≤ ·)
      (([(⟨1, 0, 0.5, "a"⟩ : SubtitleCue), ⟨2, 0.5, 1, "b"⟩, ⟨3, 2, 3, "ok"⟩]).map
        (·.start)) := by
  have h : transcribe_to_srt
      [⟨0, 1, " a b", [⟨0, 0.5, " a"⟩, ⟨0.5, 1, " b"⟩]⟩, ⟨2, 3, " ok ", []⟩]
      (some 1)
      = some [⟨1, 0, 0.5, "a"⟩, ⟨2, 0.5, 1, "b"⟩, ⟨3, 2, 3, "ok"⟩] := rfl
  apply c6_temporal_ordering
      [⟨0, 1, " a b", [⟨0, 0.5, " a"⟩, ⟨0.5, 1, " b"⟩]⟩, ⟨2, 3, " ok ", []⟩]
      (some 1) _ ?_ ?_ h
  · intro seg hseg
    rcases List.mem_cons.mp hseg with rfl | hseg
    · refine ⟨by norm_num, ?_, ?_⟩
      · refine List.Pairwise.cons ?_ (List.Pairwise.cons ?_ List.Pairwise.nil)
        · intro w hw
          simp only [List.mem_singleton] at hw
          subst hw
          norm_num
        · intro w hw
          exact absurd hw (List.not_mem_nil w)
      · intro w hw
        rcases List.mem_cons.mp hw with rfl | hw
        · exact ⟨le_rfl, by norm_num⟩
        · simp only [List.mem_singleton] at hw
          subst hw
          refine ⟨by norm_num, by norm_num⟩
    · simp only [List.mem_singleton] at hseg
      subst hseg
      exact ⟨by norm_num, List.Pairwise.nil, fun w hw => absurd hw (List.not_mem_nil w)⟩
  · rw [List.chain'_cons']
    refine ⟨?_, List.chain'_singleton _⟩
    intro s1 hs1
    simp only [List.head?_cons, Option.mem_def, Option.some.injEq] at hs1
    subst hs1
    norm_num

/-! ## Claim C8: color reordering -/

theorem hexDigit_ne_hash {c : Char} (h : hexDigit c = true) : c ≠ '#' := by
  intro he
  subst he
  exact absurd h (by rw [show hexDigit '#' = false from rfl]; simp)

/-- C8.  Color reordering: for every six-hex-digit triple `RRGGBB`, with or
without a leading `#`, `hex_to_ass` returns `"&H"` followed by the blue
pair, the green pair, then the red pair. -/
theorem c8_color_reordering (r g b : String)
    (hr : r.length = 2) (hg : g.length = 2) (hb : b.length = 2)
    (hhex : ((r ++ g ++ b).data.all hexDigit) = true) :
    hex_to_ass (r ++ g ++ b) = "&H" ++ b ++ g ++ r
    ∧ hex_to_ass ("#" ++ (r ++ g ++ b)) = "&H" ++ b ++ g ++ r := by
  have hrl : r.data.length = 2 := hr
  have hgl : g.data.length = 2 := hg
  have hbl : b.data.length = 2 := hb
  have hdata : (r ++ g ++ b).data = r.data ++ g.data ++ b.data := by
    rw [String.data_append, String.data_append]
  have hhead : ∀ cs, (r ++ g ++ b).data = cs → cs.dropWhile (· = '#') = cs := by
    intro cs hcs
    cases hcs' : cs with
    | nil => rfl
    | cons c rest =>
      have hc : hexDigit c = true := by
        have := List.all_eq_true.mp hhex c
        apply this
        rw [hcs, hcs']
        exact List.mem_cons_self c rest
      rw [List.dropWhile_cons, if_neg (by simp [hexDigit_ne_hash hc])]
  have e1 : ((r.data ++ g.data ++ b.data).drop 0).take 2 = r.data := by
    rw [List.drop_zero, List.append_assoc, ← hrl, List.take_left]
  have e2 : ((r.data ++ g.data ++ b.data).drop 2).take 2 = g.data := by
    rw [List.append_assoc]
    have d1 : (r.data ++ (g.data ++ b.data)).drop 2 = g.data ++ b.data := by
      rw [← hrl]
      exact List.drop_left _ _
    rw [d1, ← hgl]
    exact List.take_left _ _
  have e3 : ((r.data ++ g.data ++ b.data).drop 4).take 2 = b.data := by
    have h4 : (r.data ++ g.data).length = 4 := by
      rw [List.length_append, hrl, hgl]
    rw [← h4, List.drop_left, ← hbl, List.take_length]
  constructor
  · unfold hex_to_ass
    rw [hhead _ rfl, hdata, e1, e2, e3]
  · unfold hex_to_ass
    have hdata2 : ("#" ++ (r ++ g ++ b)).data = '#' :: (r ++ g ++ b).data := by
      rw [String.data_append]
      rfl
    rw [hdata2, List.dropWhile_cons, if_pos (by simp), hhead _ rfl, hdata, e1, e2, e3]

/-- Witness for C8 at the triple `1A2B3C`. -/
theorem c8_color_reordering_witness :
    hex_to_ass "1A2B3C" = "&H3C2B1A" ∧ hex_to_ass "#1A2B3C" = "&H3C2B1A" := by
  have h := c8_color_reordering "1A" "2B" "3C" rfl rfl rfl rfl
  exact ⟨h.1.trans rfl, h.2.trans rfl⟩

/-! ## Claim C7: serialization round trip — splitting and digit lemmas -/

theorem splitChar_nil (sep : Char) : splitChar sep [] = [[]] := rfl

theorem splitChar_not_mem {sep : Char} :
    ∀ {l : List Char}, sep ∉ l → splitChar sep l = [l] := by
  intro l
  induction l with
  | nil => intro _; rfl
  | cons c cs ih =>
    intro h
    have hc : ¬ c = sep := fun he => h (he ▸ List.mem_cons_self c cs)
    unfold splitChar
    rw [if_neg hc, ih fun hm => h (List.mem_cons_of_mem c hm)]

theorem splitChar_append {sep : Char} :
    ∀ {a : List Char}, sep ∉ a → ∀ b, splitChar sep (a ++ sep :: b) = a :: splitChar sep b := by
  intro a
  induction a with
  | nil =>
    intro _ b
    show splitChar sep (sep :: b) = [] :: splitChar sep b
    conv_lhs => rw [splitChar]
    rw [if_pos rfl]
  | cons c cs ih =>
    intro h b
    have hc : ¬ c = sep := fun he => h (he ▸ List.mem_cons_self c cs)
    show splitChar sep (c :: (cs ++ sep :: b)) = (c :: cs) :: splitChar sep b
    conv_lhs => rw [splitChar]
    rw [if_neg hc, ih (fun hm => h (List.mem_cons_of_mem c hm)) b]

theorem digitChar_isDigit {d : Nat} (h : d < 10) : (digitChar d).isDigit = true := by
  interval_cases d <;> rfl

theorem digitChar_toNat {d : Nat} (h : d < 10) : (digitChar d).toNat = 48 + d := by
  interval_cases d <;> rfl

/-- The decimal-value fold a conformant reader uses on a digit string. -/
def digitsVal (ds : List Char) : Nat :=
  ds.foldl (fun a c => a * 10 + (c.toNat - 48)) 0

theorem natDigits_spec : ∀ (fuel n : Nat), n < fuel →
    natDigits fuel n ≠ []
      ∧ (∀ c ∈ natDigits fuel n, c.isDigit = true)
      ∧ digitsVal (natDigits fuel n) = n := by
  intro fuel
  induction fuel with
  | zero => intro n h; omega
  | succ fuel ih =>
    intro n h
    by_cases h10 : n < 10
    · rw [natDigits, if_pos h10]
      refine ⟨by simp, ?_, ?_⟩
      · intro c hc
        simp only [List.mem_singleton] at hc
        subst hc
        exact digitChar_isDigit h10
      · show 0 * 10 + ((digitChar n).toNat - 48) = n
        rw [digitChar_toNat h10]
        omega
    · rw [natDigits, if_neg h10]
      have hrec := ih (n / 10) (by omega)
      refine ⟨by simp [hrec.1], ?_, ?_⟩
      · intro c hc
        rcases List.mem_append.mp hc with h1 | h2
        · exact hrec.2.1 c h1
        · simp only [List.mem_singleton] at h2
          subst h2
          exact digitChar_isDigit (by omega)
      · unfold digitsVal
        rw [List.foldl_append]
        show (digitsVal (natDigits fuel (n / 10))) * 10 + ((digitChar (n % 10)).toNat - 48) = n
        rw [hrec.2.2, digitChar_toNat (by omega)]
        omega

theorem parseNatChars_digits {ds : List Char} (hne : ds ≠ [])
    (hd : ∀ c ∈ ds, c.isDigit = true) :
    parseNatChars ds = some (digitsVal ds) := by
  unfold parseNatChars
  rw [if_neg (by rw [List.isEmpty_eq_false.mpr hne]; simp),
    if_pos (List.all_eq_true.mpr hd)]
  rfl

theorem parse_natRepr (n : Nat) : parseNatChars (natRepr n).data = some n := by
  have hs := natDigits_spec (n + 1) n (by omega)
  show parseNatChars (natDigits (n + 1) n) = some n
  rw [parseNatChars_digits hs.1 hs.2.1, hs.2.2]

theorem foldl_replicate_zero :
    ∀ k, digitsVal (List.replicate k '0') = 0 := by
  intro k
  induction k with
  | zero => rfl
  | succ k ih =>
    show (List.replicate k '0').foldl (fun a c => a * 10 + (c.toNat - 48)) (0 * 10 + ('0'.toNat - 48)) = 0
    exact ih

theorem zeroPad_natRepr_digits (w n : Nat) :
    ∀ c ∈ (zeroPad w (natRepr n)).data, c.isDigit = true := by
  have hs := natDigits_spec (n + 1) n (by omega)
  unfold zeroPad
  by_cases hlt : (natRepr n).length < w
  · rw [if_pos hlt]
    intro c hc
    rw [String.data_append] at hc
    rcases List.mem_append.mp hc with h1 | h2
    · rw [List.eq_of_mem_replicate h1]
      rfl
    · exact hs.2.1 c h2
  · rw [if_neg hlt]
    exact hs.2.1

theorem parse_zeroPad (w n : Nat) :
    parseNatChars (zeroPad w (natRepr n)).data = some n := by
  have hs := natDigits_spec (n + 1) n (by omega)
  unfold zeroPad
  by_cases hlt : (natRepr n).length < w
  · rw [if_pos hlt, String.data_append]
    have hne : List.replicate (w - (natRepr n).length) '0' ++ (natRepr n).data ≠ [] :=
      fun hcon => hs.1 (List.append_eq_nil.mp hcon).2
    have hd : ∀ c ∈ List.replicate (w - (natRepr n).length) '0' ++ (natRepr n).data,
        c.isDigit = true := by
      intro c hc
      rcases List.mem_append.mp hc with h1 | h2
      · rw [List.eq_of_mem_replicate h1]
        rfl
      · exact hs.2.1 c h2
    rw [parseNatChars_digits hne hd]
    unfold digitsVal
    rw [List.foldl_append]
    show Option.some ((natRepr n).data.foldl _ (digitsVal (List.replicate _ '0'))) = _
    rw [foldl_replicate_zero]
    show Option.some (digitsVal (natDigits (n + 1) n)) = _
    rw [hs.2.2]
  · rw [if_neg hlt]
    exact parse_natRepr n

theorem not_mem_of_digits {l : List Char} (hd : ∀ c ∈ l, c.isDigit = true) {d : Char}
    (hdd : d.isDigit = false) : d ∉ l := by
  intro hm
  rw [hd d hm] at hdd
  exact Bool.noConfusion hdd

theorem format_time_spec_data (q : ℚ) :
    (format_time_spec q).data
      = (zeroPad 2 (natRepr (⌊q / 3600⌋).toNat)).data
        ++ ':' :: ((zeroPad 2 (natRepr (⌊(q - 3600 * ⌊q / 3600⌋) / 60⌋).toNat)).data
        ++ ':' :: ((zeroPad 2 (natRepr (⌊q - 60 * ⌊q / 60⌋⌋).toNat)).data
        ++ ',' :: (zeroPad 3 (natRepr (⌊(q - ⌊q⌋) * 1000⌋).toNat)).data)) := by
  unfold format_time_spec
  simp [String.data_append]

theorem parseTimestamp_format {q : ℚ} (hq : 0 ≤ q) :
    parseTimestamp (format_srt_time q).data = some (msTrunc q) := by
  have h1 : (0:ℚ) ≤ q / 3600 := by positivity
  have h2 : (0:ℚ) ≤ pyMod q 3600 := pyMod_nonneg q (by norm_num)
  have h3 : (0:ℚ) ≤ pyMod q 3600 / 60 := by positivity
  have h4 : (0:ℚ) ≤ pyMod q 60 := pyMod_nonneg q (by norm_num)
  have h5 : (0:ℚ) ≤ (q - (⌊q⌋ : ℚ)) * 1000 := by
    have := Int.floor_le q
    nlinarith
  have hA0 : 0 ≤ ⌊q / 3600⌋ := floor_nonneg_of_nonneg h1
  have hB0 : 0 ≤ ⌊(q - 3600 * (⌊q / 3600⌋ : ℚ)) / 60⌋ := floor_nonneg_of_nonneg h3
  have hC0 : 0 ≤ ⌊q - 60 * (⌊q / 60⌋ : ℚ)⌋ := floor_nonneg_of_nonneg h4
  have hD0 : 0 ≤ ⌊(q - (⌊q⌋ : ℚ)) * 1000⌋ := floor_nonneg_of_nonneg h5
  have dA := zeroPad_natRepr_digits 2 (⌊q / 3600⌋).toNat
  have dB := zeroPad_natRepr_digits 2 (⌊(q - 3600 * (⌊q / 3600⌋ : ℚ)) / 60⌋).toNat
  have dC := zeroPad_natRepr_digits 2 (⌊q - 60 * (⌊q / 60⌋ : ℚ)⌋).toNat
  have dD := zeroPad_natRepr_digits 3 (⌊(q - (⌊q⌋ : ℚ)) * 1000⌋).toNat
  rw [format_srt_time_eq_spec q hq]
  unfold parseTimestamp
  rw [format_time_spec_data q]
  have hs1 : splitChar ':'
      ((zeroPad 2 (natRepr (⌊q / 3600⌋).toNat)).data
        ++ ':' :: ((zeroPad 2 (natRepr (⌊(q - 3600 * ⌊q / 3600⌋) / 60⌋).toNat)).data
        ++ ':' :: ((zeroPad 2 (natRepr (⌊q - 60 * ⌊q / 60⌋⌋).toNat)).data
        ++ ',' :: (zeroPad 3 (natRepr (⌊(q - ⌊q⌋) * 1000⌋).toNat)).data)))
      = [(zeroPad 2 (natRepr (⌊q / 3600⌋).toNat)).data,
         (zeroPad 2 (natRepr (⌊(q - 3600 * ⌊q / 3600⌋) / 60⌋).toNat)).data,
         (zeroPad 2 (natRepr (⌊q - 60 * ⌊q / 60⌋⌋).toNat)).data
           ++ ',' :: (zeroPad 3 (natRepr (⌊(q - ⌊q⌋) * 1000⌋).toNat)).data] := by
    rw [splitChar_append (@not_mem_of_digits _ dA ':' rfl),
      splitChar_append (@not_mem_of_digits _ dB ':' rfl)]
    rw [splitChar_not_mem]
    intro hm
    rcases List.mem_append.mp hm with hm1 | hm2
    · exact @not_mem_of_digits _ dC ':' rfl hm1
    · rcases List.mem_cons.mp hm2 with he | hm3
      · exact absurd he (by decide)
      · exact @not_mem_of_digits _ dD ':' rfl hm3
  rw [hs1]
  dsimp only
  have hs2 : splitChar ','
      ((zeroPad 2 (natRepr (⌊q - 60 * ⌊q / 60⌋⌋).toNat)).data
        ++ ',' :: (zeroPad 3 (natRepr (⌊(q - ⌊q⌋) * 1000⌋).toNat)).data)
      = [(zeroPad 2 (natRepr (⌊q - 60 * ⌊q / 60⌋⌋).toNat)).data,
         (zeroPad 3 (natRepr (⌊(q - ⌊q⌋) * 1000⌋).toNat)).data] := by
    rw [splitChar_append (@not_mem_of_digits _ dC ',' rfl),
      splitChar_not_mem (@not_mem_of_digits _ dD ',' rfl)]
  rw [hs2]
  dsimp only
  rw [parse_zeroPad 2 (⌊q / 3600⌋).toNat,
    parse_zeroPad 2 (⌊(q - 3600 * (⌊q / 3600⌋ : ℚ)) / 60⌋).toNat,
    parse_zeroPad 2 (⌊q - 60 * (⌊q / 60⌋ : ℚ)⌋).toNat,
    parse_zeroPad 3 (⌊(q - (⌊q⌋ : ℚ)) * 1000⌋).toNat]
  dsimp only
  congr 1
  have cA : ((⌊q / 3600⌋.toNat : ℚ)) = ((⌊q / 3600⌋ : ℤ) : ℚ) := by
    exact_mod_cast congrArg (fun z : ℤ => (z : ℚ)) (Int.toNat_of_nonneg hA0)
  have cB : ((⌊(q - 3600 * (⌊q / 3600⌋ : ℚ)) / 60⌋.toNat : ℚ))
      = ((⌊(q - 3600 * (⌊q / 3600⌋ : ℚ)) / 60⌋ : ℤ) : ℚ) := by
    exact_mod_cast congrArg (fun z : ℤ => (z : ℚ)) (Int.toNat_of_nonneg hB0)
  have cC : ((⌊q - 60 * (⌊q / 60⌋ : ℚ)⌋.toNat : ℚ))
      = ((⌊q - 60 * (⌊q / 60⌋ : ℚ)⌋ : ℤ) : ℚ) := by
    exact_mod_cast congrArg (fun z : ℤ => (z : ℚ)) (Int.toNat_of_nonneg hC0)
  have cD : ((⌊(q - (⌊q⌋ : ℚ)) * 1000⌋.toNat : ℚ))
      = ((⌊(q - (⌊q⌋ : ℚ)) * 1000⌋ : ℤ) : ℚ) := by
    exact_mod_cast congrArg (fun z : ℤ => (z : ℚ)) (Int.toNat_of_nonneg hD0)
  rw [cA, cB, cC, cD]
  have hB : ⌊(q - 3600 * (⌊q / 3600⌋ : ℚ)) / 60⌋ = ⌊q / 60⌋ - 60 * ⌊q / 3600⌋ := by
    have e : (q - 3600 * (⌊q / 3600⌋ : ℚ)) / 60 = q / 60 - ((60 * ⌊q / 3600⌋ : ℤ) : ℚ) := by
      push_cast
      ring
    rw [e, Int.floor_sub_int]
  have hC : ⌊q - 60 * (⌊q / 60⌋ : ℚ)⌋ = ⌊q⌋ - 60 * ⌊q / 60⌋ := by
    have e : q - 60 * (⌊q / 60⌋ : ℚ) = q - ((60 * ⌊q / 60⌋ : ℤ) : ℚ) := by
      push_cast
      ring
    rw [e, Int.floor_sub_int]
  have hD : ⌊(q - (⌊q⌋ : ℚ)) * 1000⌋ = ⌊q * 1000⌋ - 1000 * ⌊q⌋ := by
    have e : (q - (⌊q⌋ : ℚ)) * 1000 = q * 1000 - ((1000 * ⌊q⌋ : ℤ) : ℚ) := by
      push_cast
      ring
    rw [e, Int.floor_sub_int]
  rw [hB, hC, hD]
  unfold msTrunc
  push_cast
  ring

theorem splitChar_sep_cons (sep : Char) (b : List Char) :
    splitChar sep (sep :: b) = [] :: splitChar sep b := by
  conv_lhs => rw [splitChar]
  rw [if_pos rfl]

theorem format_chars {q : ℚ} (hq : 0 ≤ q) :
    ∀ c ∈ (format_srt_time q).data, c.isDigit = true ∨ c = ':' ∨ c = ',' := by
  rw [format_srt_time_eq_spec q hq]
  intro c hc
  rw [format_time_spec_data q] at hc
  rcases List.mem_append.mp hc with h1 | h2
  · exact Or.inl (zeroPad_natRepr_digits _ _ c h1)
  · rcases List.mem_cons.mp h2 with rfl | h3
    · exact Or.inr (Or.inl rfl)
    · rcases List.mem_append.mp h3 with h4 | h5
      · exact Or.inl (zeroPad_natRepr_digits _ _ c h4)
      · rcases List.mem_cons.mp h5 with rfl | h6
        · exact Or.inr (Or.inl rfl)
        · rcases List.mem_append.mp h6 with h7 | h8
          · exact Or.inl (zeroPad_natRepr_digits _ _ c h7)
          · rcases List.mem_cons.mp h8 with rfl | h9
            · exact Or.inr (Or.inr rfl)
            · exact Or.inl (zeroPad_natRepr_digits _ _ c h9)

theorem format_no_space {q : ℚ} (hq : 0 ≤ q) : ' ' ∉ (format_srt_time q).data := by
  intro hm
  rcases format_chars hq _ hm with hd | he | he
  · have hf : (' ').isDigit = false := rfl
    rw [hd] at hf
    exact Bool.noConfusion hf
  · exact absurd he (by decide)
  · exact absurd he (by decide)

theorem format_no_newline {q : ℚ} (hq : 0 ≤ q) : '\n' ∉ (format_srt_time q).data := by
  intro hm
  rcases format_chars hq _ hm with hd | he | he
  · have hf : ('\n').isDigit = false := rfl
    rw [hd] at hf
    exact Bool.noConfusion hf
  · exact absurd he (by decide)
  · exact absurd he (by decide)

theorem parseTimeLine_format {q1 q2 : ℚ} (h1 : 0 ≤ q1) (h2 : 0 ≤ q2) :
    parseTimeLine (format_srt_time q1 ++ " --> " ++ format_srt_time q2).data
      = some (msTrunc q1, msTrunc q2) := by
  have hd : (format_srt_time q1 ++ " --> " ++ format_srt_time q2).data
      = (format_srt_time q1).data
        ++ ' ' :: (['-', '-', '>'] ++ ' ' :: (format_srt_time q2).data) := by
    rw [String.data_append, String.data_append]
    simp
  unfold parseTimeLine
  rw [hd, splitChar_append (format_no_space h1),
    splitChar_append (by decide : ' ' ∉ ['-', '-', '>']),
    splitChar_not_mem (format_no_space h2)]
  dsimp only
  rw [if_pos rfl, parseTimestamp_format h1, parseTimestamp_format h2]

theorem join_foldl (l : List String) :
    ∀ a : String, l.foldl (· ++ ·) a = a ++ l.foldl (· ++ ·) "" := by
  induction l with
  | nil =>
    intro a
    show a = a ++ ""
    rw [String.append_empty]
  | cons s t ih =>
    intro a
    show t.foldl (· ++ ·) (a ++ s) = a ++ t.foldl (· ++ ·) ("" ++ s)
    rw [ih (a ++ s), ih ("" ++ s), String.empty_append, String.append_assoc]

theorem srtFile_cons (c : SubtitleCue) (cs : List SubtitleCue) :
    srtFile (c :: cs) = cueBlock c ++ srtFile cs := by
  show (List.map cueBlock (c :: cs)).foldl (· ++ ·) "" = _
  rw [List.map_cons]
  show (List.map cueBlock cs).foldl (· ++ ·) ("" ++ cueBlock c) = _
  rw [String.empty_append, join_foldl]
  rfl

theorem cueBlock_data (c : SubtitleCue) (rest : List Char) :
    (cueBlock c).data ++ rest
      = (natRepr c.index).data
        ++ '\n' :: ((format_srt_time c.start ++ " --> " ++ format_srt_time c.«end»).data
        ++ '\n' :: (c.text.data ++ '\n' :: '\n' :: rest)) := by
  unfold cueBlock
  simp [String.data_append]

/-- C7.  Serialization round trip: serializing a cue sequence in the SRT
block layout (`index` line, `start --> end` line with timestamps formatted
by `format_srt_time`, `text` line, blank separator line) and parsing the
result back with the conformant subtitle-block reader yields cues with
identical index, identical text, and start/end equal to the original
values truncated to millisecond precision, for cues with non-negative
times and newline-free text. -/
theorem c7_serialization_round_trip (cues : List SubtitleCue)
    (h : ∀ c ∈ cues, 0 ≤ c.start ∧ 0 ≤ c.«end» ∧ '\n' ∉ c.text.data) :
    parseSrt (srtFile cues)
      = some (cues.map fun c => ⟨c.index, msTrunc c.start, msTrunc c.«end», c.text⟩) := by
  induction cues with
  | nil => rfl
  | cons c cs ih =>
    obtain ⟨hs, he, ht⟩ := h c (List.mem_cons_self c cs)
    have hrest := ih fun c' hc' => h c' (List.mem_cons_of_mem c hc')
    unfold parseSrt at hrest ⊢
    rw [srtFile_cons, String.data_append, cueBlock_data c (srtFile cs).data]
    have hidx : '\n' ∉ (natRepr c.index).data := by
      have hdig := (natDigits_spec (c.index + 1) c.index (by omega)).2.1
      exact @not_mem_of_digits _ hdig '\n' rfl
    have htime : '\n' ∉
        (format_srt_time c.start ++ " --> " ++ format_srt_time c.«end»).data := by
      rw [String.data_append, String.data_append]
      intro hm
      rcases List.mem_append.mp hm with hm1 | hm2
      · rcases List.mem_append.mp hm1 with hm3 | hm4
        · exact format_no_newline hs hm3
        · revert hm4
          decide
      · exact format_no_newline he hm2
    rw [splitChar_append hidx, splitChar_append htime, splitChar_append ht,
      splitChar_sep_cons]
    conv_lhs => rw [parseBlocks]
    rw [if_pos rfl, parse_natRepr c.index, parseTimeLine_format hs he, hrest]
    rfl

/-- Witness for C7 at one concrete cue with millisecond-exact times. -/
theorem c7_serialization_round_trip_witness :
    parseSrt (srtFile [⟨1, 0.5, 1.25, "Hello"⟩]) = some [⟨1, 0.5, 1.25, "Hello"⟩] := by
  have hhyp : ∀ c ∈ [(⟨1, 0.5, 1.25, "Hello"⟩ : SubtitleCue)],
      0 ≤ c.start ∧ 0 ≤ c.«end» ∧ '\n' ∉ c.text.data := by
    intro c hc
    simp only [List.mem_singleton] at hc
    subst hc
    refine ⟨by norm_num, by norm_num, by decide⟩
  rw [c7_serialization_round_trip _ hhyp]
  have e1 : msTrunc (0.5 : ℚ) = 0.5 := by
    unfold msTrunc
    rw [show ⌊(0.5 : ℚ) * 1000⌋ = 500 from by rw [Int.floor_eq_iff]; norm_num]
    norm_num
  have e2 : msTrunc (1.25 : ℚ) = 1.25 := by
    unfold msTrunc
    rw [show ⌊(1.25 : ℚ) * 1000⌋ = 1250 from by rw [Int.floor_eq_iff]; norm_num]
    norm_num
  rw [List.map_cons, e1, e2]
  rfl

end SrtTranscriber
